/-
Verification of the collage pipeline of ScriptTaste (src/src/collage.py).

The pipeline normalizes weighted poster images so that on-canvas area encodes
relative weight, packs the resulting rectangles, composites them onto a white
canvas and diffuses the remaining deadspace by repeated masked blurring.

Embedding conventions:
* PIL images are modelled by their size `(W, H) = img.size` for the normalizer
  stage (the resampled pixel contents are irrelevant to the size claims), and
  by a record of dimensions plus a pixel function for the compositing stage.
* Python float arithmetic is modelled by exact rational arithmetic.  The two
  real-valued quantities in `resize_width_w_constant_aspect`,
  `width = sqrt(ratio) * W` and `height = width * W / H`, are represented by
  their squares `width2 = ratio * W^2` and `height2 = width2 * W^2 / H^2`,
  which are rational.  Both quantities are nonnegative whenever `ratio` is,
  and then `width >= 1` iff `width2 >= 1`, and `int(width) = Nat.sqrt ⌊width2⌋`
  (floor of the real square root).  When `ratio < 0`, `np.sqrt` yields NaN and
  every comparison with NaN is false, so the Python branch returns None; the
  squared encoding gives `width2 < 1` and also returns none, matching.
* Python `max` over an empty sequence raises `ValueError`; this is modelled by
  `Option`, with `none` for the raising path.
* The Gaussian blur and the packing routine (`rpack.pack`) are external
  primitives, modelled as explicit function parameters.
-/
import Mathlib

namespace ScriptTaste

/-! ### Normalizer stage (src/src/collage.py, `resize_width_w_constant_aspect`
and `normalize_posters`)

A weighted poster is a triple `(time, W, H)` where `(W, H) = img.size`. -/

/-- Square of the Python value `width = np.sqrt(ratio) * img.size[0]`
(line 139 of collage.py). -/
def width2 (ratio : ℚ) (W : ℕ) : ℚ := ratio * (W : ℚ) ^ 2

/-- Square of the Python value `height = width * img.size[0] / img.size[1]`
(line 140 of collage.py).  Note the source really multiplies by `W / H`
(size[0] over size[1]), not by `H / W`. -/
def height2 (ratio : ℚ) (W H : ℕ) : ℚ := width2 ratio W * (W : ℚ) ^ 2 / (H : ℚ) ^ 2

/-- `int(x)` applied to the real square root of a nonnegative rational:
`⌊Real.sqrt q⌋ = Nat.sqrt ⌊q⌋` since both are the largest `n` with `n^2 ≤ q`. -/
def ratSqrtFloor (q : ℚ) : ℕ := Nat.sqrt (⌊q⌋).toNat

/-- `resize_width_w_constant_aspect` (collage.py lines 124-145), size level.
The source computes `width`, `height` as above and, when both are `>= 1`,
returns `img.resize((int(height), int(width)))`; a PIL size tuple is
`(width, height)`, so the returned image has width `int(height)` and height
`int(width)`.  Returns the new `(W, H)` size, or `none` for Python `None`. -/
def resize_width_w_constant_aspect (ratio : ℚ) (W H : ℕ) : Option (ℕ × ℕ) :=
  if 1 ≤ height2 ratio W H ∧ 1 ≤ width2 ratio W then
    some (ratSqrtFloor (height2 ratio W H), ratSqrtFloor (width2 ratio W))
  else
    none

/-- The ratio `area_norm_ratio * time_norm_ratio` computed in
`normalize_posters` (collage.py lines 112-114). -/
def norm_ratio (max_area max_time time W H : ℕ) : ℚ :=
  ((max_area : ℚ) / ((W : ℚ) * (H : ℚ))) * ((time : ℚ) / (max_time : ℚ))

/-- `normalize_posters` (collage.py lines 80-121), size level.  Input is a
list of `(time, (W, H))` triples; `max` over an empty list raises, modelled by
`none`.  Images resized to `None` are silently skipped (`if img:`). -/
def normalize_posters (time_posters : List (ℕ × ℕ × ℕ)) :
    Option (List (ℕ × ℕ)) :=
  match (time_posters.map fun p => p.1).max?,
      (time_posters.map fun p => p.2.1 * p.2.2).max? with
  | some max_time, some max_area =>
      some (time_posters.filterMap fun p =>
        resize_width_w_constant_aspect
          (norm_ratio max_area max_time p.1 p.2.1 p.2.2) p.2.1 p.2.2)
  | _, _ => none

/-- The square of the exact (pre-truncation) final pixel area of a resized
image: the exact final width is the square root of `height2` and the exact
final height is the square root of `width2`, so the exact area squared is
their product. -/
def finalAreaSq (ratio : ℚ) (W H : ℕ) : ℚ :=
  height2 ratio W H * width2 ratio W

/-! ### Compositing stage (src/src/collage.py, `arrange_images`)

An image is modelled by its size together with a pixel function; the canvas
and the deadspace mask are functions on (row, column) coordinates, exactly the
numpy index order `collage[y, x]`.  The external primitives `rpack.pack` and
`PIL GaussianBlur` are function parameters. -/

/-- An RGB pixel value. -/
abbrev RGB := ℕ × ℕ × ℕ

/-- A decoded image: `(w, h) = img.size` plus pixel contents, with
`pix row col` the pixel at numpy index `[row, col]`. -/
structure Img where
  w : ℕ
  h : ℕ
  pix : ℕ → ℕ → RGB

/-- Pixel area `img.size[0] * img.size[1]`, the sort key in `arrange_images`
(collage.py line 167). -/
def Img.area (img : Img) : ℕ := img.w * img.h

/-- A rectangle placed on the canvas: the packer position `(x, y)` is the
top-left corner. -/
structure Placement where
  x : ℕ
  y : ℕ
  img : Img

/-- The canvas background color, `np.full(..., 255)` (collage.py line 174). -/
def white : RGB := (255, 255, 255)

/-- Whether the rectangle of placement `p` covers canvas cell
`[row, col]`, i.e. the cell lies in the numpy slice
`[y : y + dy, x : x + dx]` written by the placement loop
(collage.py lines 178-181). -/
def inRect (p : Placement) (row col : ℕ) : Bool :=
  decide (p.y ≤ row) && decide (row < p.y + p.img.h) &&
    decide (p.x ≤ col) && decide (col < p.x + p.img.w)

/-- The canvas after the placement loop (collage.py lines 178-181): start from
the all-white canvas and write each image buffer in order at its anchor;
sequential numpy writes mean a later write takes precedence. -/
def composite (ps : List Placement) (row col : ℕ) : RGB :=
  ps.foldl
    (fun acc p => if inRect p row col then p.img.pix (row - p.y) (col - p.x) else acc)
    white

/-- The deadspace mask after the placement loop (collage.py lines 175, 181):
start from all-`True` and clear the cells of each placed rectangle.  It is
computed once, before the diffusion loop, and never recomputed. -/
def deadspace (ps : List Placement) (row col : ℕ) : Bool :=
  ps.foldl (fun acc p => if inRect p row col then false else acc) true

/-- The greedy pre-sort of `arrange_images` (collage.py lines 166-168):
Python `sorted(key=lambda x: x.size[0] * x.size[1], reverse=True)` is the
stable sort that puts larger areas first while equal areas keep their input
order, which is exactly `List.mergeSort` with the reflexive total order
"area at least as large". -/
def sort_posters (posters : List Img) : List Img :=
  posters.mergeSort fun a b => decide (b.area ≤ a.area)

/-- The placements produced in `arrange_images` (collage.py lines 166-170,
178): sizes of the sorted posters are handed to the packer and each returned
position is paired with its poster; Python `zip` truncates to the shorter
list. -/
def placements (pack : List (ℕ × ℕ) → List (ℕ × ℕ)) (posters : List Img) :
    List Placement :=
  ((pack ((sort_posters posters).map fun im => (im.w, im.h))).zip
    (sort_posters posters)).map fun q => ⟨q.1.1, q.1.2, q.2⟩

/-- One diffusion iteration (collage.py lines 188-190): blur the whole
current canvas, then overwrite exactly the cells where the mask is set. -/
def diffuse_step (blur : (ℕ → ℕ → RGB) → ℕ → ℕ → RGB) (mask : ℕ → ℕ → Bool)
    (c : ℕ → ℕ → RGB) : ℕ → ℕ → RGB :=
  fun row col => if mask row col then blur c row col else c row col

/-- The finished collage: canvas dimensions plus pixel contents. -/
structure Collage where
  width : ℕ
  height : ℕ
  pix : ℕ → ℕ → RGB

/-- `arrange_images` (collage.py lines 148-192).  `pack` models `rpack.pack`
and `blur` models one application of the Gaussian blur of the fixed radius;
the canvas is `max_width + 1` by `max_height + 1` (lines 172-174), `max` over
an empty sequence raises (modelled by `none`), and the diffusion loop runs
`blur_factor` times over the composited canvas with the mask fixed. -/
def arrange_images (pack : List (ℕ × ℕ) → List (ℕ × ℕ))
    (blur : (ℕ → ℕ → RGB) → ℕ → ℕ → RGB) (posters : List Img)
    (blur_factor : ℕ) : Option Collage :=
  match ((placements pack posters).map fun p => p.x + p.img.w).max?,
      ((placements pack posters).map fun p => p.y + p.img.h).max? with
  | some max_width, some max_height =>
      some
        { width := max_width + 1
          height := max_height + 1
          pix :=
            (diffuse_step blur (deadspace (placements pack posters)))^[blur_factor]
              (composite (placements pack posters)) }
  | _, _ => none

/-! ### Concrete instances used by witnesses

A simple concrete packer (rectangles side by side on one row), a concrete
packer that stacks everything at the origin, a constant blur, and a one-poster
input with the collage that `arrange_images` produces for it. -/

/-- A concrete packer placing the rectangles left to right in one row. -/
def pack_row (sizes : List (ℕ × ℕ)) : List (ℕ × ℕ) :=
  (sizes.foldl (fun st wh => (st.1 ++ [(st.2, 0)], st.2 + wh.1)) ([], 0)).1

/-- A concrete packer placing every rectangle at the origin. -/
def pack_zero (sizes : List (ℕ × ℕ)) : List (ℕ × ℕ) :=
  sizes.map fun _ => (0, 0)

/-- A concrete blur returning a constant color everywhere. -/
def blur_const : (ℕ → ℕ → RGB) → ℕ → ℕ → RGB := fun _ _ _ => (7, 7, 7)

/-- A one-poster input: a single 2 by 1 image. -/
def posters_demo : List Img := [⟨2, 1, fun _ _ => (1, 2, 3)⟩]

/-- The placement list `arrange_images` derives from `posters_demo` with
`pack_row`. -/
def ps_demo : List Placement := [⟨0, 0, ⟨2, 1, fun _ _ => (1, 2, 3)⟩⟩]

/-- The collage produced for `posters_demo` with two diffusion iterations. -/
def coll_demo : Collage :=
  ⟨3, 2, (diffuse_step blur_const (deadspace ps_demo))^[2] (composite ps_demo)⟩

/-- The collage produced for `posters_demo` with zero diffusion iterations. -/
def coll_demo0 : Collage := ⟨3, 2, composite ps_demo⟩

/-! ### Helper lemmas -/

/-- `ratSqrtFloor q` squared is at most `q`: it underestimates the real
square root. -/
lemma ratSqrtFloor_sq_le (q : ℚ) (hq : 0 ≤ q) :
    ((ratSqrtFloor q : ℚ)) ^ 2 ≤ q := by
  unfold ratSqrtFloor
  have h1 : (Nat.sqrt (⌊q⌋).toNat) ^ 2 ≤ (⌊q⌋).toNat := Nat.sqrt_le' _
  have h2 : ((⌊q⌋).toNat : ℚ) ≤ q := by
    rw [show (((⌊q⌋).toNat : ℚ)) = ((((⌊q⌋).toNat : ℤ)) : ℚ) by push_cast; ring,
      Int.toNat_of_nonneg (Int.floor_nonneg.mpr hq)]
    exact Int.floor_le q
  calc ((Nat.sqrt (⌊q⌋).toNat : ℚ)) ^ 2 = ((Nat.sqrt (⌊q⌋).toNat ^ 2 : ℕ) : ℚ) := by
        push_cast; ring
    _ ≤ (((⌊q⌋).toNat : ℕ) : ℚ) := by exact_mod_cast h1
    _ ≤ q := h2

/-- `q` is below the square of `ratSqrtFloor q + 1`: the underestimate is off
by less than one. -/
lemma lt_ratSqrtFloor_add_one_sq (q : ℚ) :
    q < ((ratSqrtFloor q : ℚ) + 1) ^ 2 := by
  unfold ratSqrtFloor
  have h1 : (⌊q⌋).toNat < (Nat.sqrt (⌊q⌋).toNat + 1) ^ 2 := Nat.lt_succ_sqrt' _
  have h2 : q < ((⌊q⌋).toNat : ℚ) + 1 := by
    have := Int.lt_floor_add_one q
    have h3 : (⌊q⌋ : ℚ) ≤ ((⌊q⌋).toNat : ℚ) := by exact_mod_cast Int.self_le_toNat _
    linarith
  calc q < ((⌊q⌋).toNat : ℚ) + 1 := h2
    _ ≤ (((Nat.sqrt (⌊q⌋).toNat + 1) ^ 2 : ℕ) : ℚ) := by exact_mod_cast h1
    _ = ((Nat.sqrt (⌊q⌋).toNat : ℚ) + 1) ^ 2 := by push_cast; ring

/-- `ratSqrtFloor` underestimates the real square root. -/
lemma ratSqrtFloor_le_sqrt (q : ℚ) (hq : 0 ≤ q) :
    (ratSqrtFloor q : ℝ) ≤ Real.sqrt (q : ℝ) := by
  rw [Real.le_sqrt (by positivity) (by exact_mod_cast hq)]
  exact_mod_cast ratSqrtFloor_sq_le q hq

/-- The real square root is below `ratSqrtFloor + 1`. -/
lemma sqrt_lt_ratSqrtFloor_add_one (q : ℚ) :
    Real.sqrt (q : ℝ) < (ratSqrtFloor q : ℝ) + 1 := by
  rw [Real.sqrt_lt' (by positivity)]
  exact_mod_cast lt_ratSqrtFloor_add_one_sq q

/-- `ratSqrtFloor` is exactly the floor of the real square root: the `int`
truncation of the Python value. -/
lemma floor_sqrt_eq_ratSqrtFloor (q : ℚ) (hq : 0 ≤ q) :
    ⌊Real.sqrt (q : ℝ)⌋ = (ratSqrtFloor q : ℤ) := by
  rw [Int.floor_eq_iff]
  constructor
  · exact_mod_cast ratSqrtFloor_le_sqrt q hq
  · exact_mod_cast sqrt_lt_ratSqrtFloor_add_one q

/-- General form of the deadspace fold: the accumulator survives exactly when
no placement in the list covers the cell. -/
lemma deadspace_foldl (ps : List Placement) (acc : Bool) (row col : ℕ) :
    ps.foldl (fun a p => if inRect p row col then false else a) acc =
      (acc && decide (∀ p ∈ ps, inRect p row col = false)) := by
  induction ps generalizing acc with
  | nil => simp
  | cons p ps ih =>
      simp only [List.foldl_cons, ih]
      by_cases h : inRect p row col
      · simp [h]
      · simp [h, Bool.eq_false_iff.mpr h]

/-- The mask is set at a cell precisely when no placed rectangle covers it. -/
lemma deadspace_eq_true_iff (ps : List Placement) (row col : ℕ) :
    deadspace ps row col = true ↔ ∀ p ∈ ps, inRect p row col = false := by
  unfold deadspace
  rw [deadspace_foldl]
  simp

/-- General form of the composite fold: a cell covered by no placement keeps
the accumulator value. -/
lemma composite_foldl_of_uncovered (ps : List Placement) (acc : RGB)
    (row col : ℕ) (h : ∀ p ∈ ps, inRect p row col = false) :
    ps.foldl
      (fun a p => if inRect p row col then p.img.pix (row - p.y) (col - p.x) else a)
      acc = acc := by
  induction ps generalizing acc with
  | nil => rfl
  | cons p ps ih =>
      have hp : inRect p row col = false := h p (by simp)
      simp only [List.foldl_cons, hp, Bool.false_eq_true, if_false]
      exact ih _ fun q hq => h q (by simp [hq])

/-- Cells of the composited canvas that the mask leaves set hold the
background color. -/
lemma composite_eq_white_of_deadspace (ps : List Placement) (row col : ℕ)
    (h : deadspace ps row col = true) : composite ps row col = white :=
  composite_foldl_of_uncovered ps white row col
    ((deadspace_eq_true_iff ps row col).mp h)

/-- Diffusion iterations never touch a cell that the mask leaves clear. -/
lemma diffuse_iterate_of_not_deadspace
    (blur : (ℕ → ℕ → RGB) → ℕ → ℕ → RGB) (mask : ℕ → ℕ → Bool)
    (c : ℕ → ℕ → RGB) (n : ℕ) (row col : ℕ) (h : mask row col = false) :
    ((diffuse_step blur mask)^[n] c) row col = c row col := by
  induction n with
  | zero => rfl
  | succ n ih =>
      rw [Function.iterate_succ_apply']
      simp only [diffuse_step, h, Bool.false_eq_true, if_false]
      exact ih

/-- The demo placements: the single poster goes to the origin. -/
lemma placements_demo_eq : placements pack_row posters_demo = ps_demo := by
  simp [placements, sort_posters, posters_demo, pack_row, ps_demo]

/-- Evaluating `arrange_images` on the demo input with two diffusion
iterations. -/
lemma arrange_demo_eq :
    arrange_images pack_row blur_const posters_demo 2 = some coll_demo := by
  simp [arrange_images, placements_demo_eq, ps_demo, coll_demo, List.max?]

/-- Evaluating `arrange_images` on the demo input with zero diffusion
iterations. -/
lemma arrange_demo0_eq :
    arrange_images pack_row blur_const posters_demo 0 = some coll_demo0 := by
  simp [arrange_images, placements_demo_eq, ps_demo, coll_demo0, List.max?]

/-! ### Claims -/

/-- C6: after compositing and before any diffusion iteration, the deadspace
mask is true at a canvas cell precisely when the cell lies outside the
bounding box of every placed rectangle. -/
theorem claim_mask_correctness (ps : List Placement) (row col : ℕ) :
    deadspace ps row col = true ↔ ∀ p ∈ ps, inRect p row col = false :=
  deadspace_eq_true_iff ps row col

/-- Witness for C6 at a concrete placement list and cell. -/
theorem claim_mask_correctness_witness :
    deadspace [⟨2, 2, ⟨1, 1, fun _ _ => (0, 0, 0)⟩⟩] 0 0 = true :=
  (claim_mask_correctness [⟨2, 2, ⟨1, 1, fun _ _ => (0, 0, 0)⟩⟩] 0 0).mpr
    (by decide)

/-- C3: for every blur function, every iteration count and every canvas cell
covered by some placed rectangle (mask false there), the final collage pixel
is bit-identical to the composited pixel: diffusion only ever overwrites
cells whose (once-computed, never updated) mask is true. -/
theorem claim_diffusion_non_invasive
    (pack : List (ℕ × ℕ) → List (ℕ × ℕ))
    (blur : (ℕ → ℕ → RGB) → ℕ → ℕ → RGB) (posters : List Img)
    (blur_factor : ℕ) (coll : Collage)
    (hc : arrange_images pack blur posters blur_factor = some coll)
    (row col : ℕ)
    (h : deadspace (placements pack posters) row col = false) :
    coll.pix row col = composite (placements pack posters) row col := by
  unfold arrange_images at hc
  split at hc
  · cases hc
    exact diffuse_iterate_of_not_deadspace _ _ _ _ _ _ h
  · cases hc

/-- Witness for C3: the demo collage keeps the composited pixel at the
covered cell (0, 0) after two diffusion iterations. -/
theorem claim_diffusion_non_invasive_witness :
    coll_demo.pix 0 0 = composite (placements pack_row posters_demo) 0 0 :=
  claim_diffusion_non_invasive pack_row blur_const posters_demo 2 coll_demo
    arrange_demo_eq 0 0 (by rw [placements_demo_eq]; decide)

/-- C9: with `blur_factor = 0` the diffusion stage is the identity: the
returned canvas is the post-compositing canvas exactly, and every deadspace
cell still holds the flat background color. -/
theorem claim_blur_factor_zero_noop
    (pack : List (ℕ × ℕ) → List (ℕ × ℕ))
    (blur : (ℕ → ℕ → RGB) → ℕ → ℕ → RGB) (posters : List Img)
    (coll : Collage) (hc : arrange_images pack blur posters 0 = some coll) :
    (∀ row col, coll.pix row col = composite (placements pack posters) row col) ∧
    (∀ row col, deadspace (placements pack posters) row col = true →
      coll.pix row col = white) := by
  unfold arrange_images at hc
  split at hc
  · cases hc
    refine ⟨fun row col => rfl, fun row col h => ?_⟩
    exact composite_eq_white_of_deadspace _ _ _ h
  · cases hc

/-- Witness for C9: on the demo input with zero iterations, the uncovered
cell (0, 2) is still white. -/
theorem claim_blur_factor_zero_noop_witness :
    coll_demo0.pix 0 2 = white :=
  (claim_blur_factor_zero_noop pack_row blur_const posters_demo coll_demo0
    arrange_demo0_eq).2 0 2 (by rw [placements_demo_eq]; decide)

/-- C5: for a non-empty set of placed rectangles (the two canvas maxima
exist), `arrange_images` produces a collage whose width is exactly
`1 + max (x + w)` and whose height is exactly `1 + max (y + h)`; the
background constant is pure white and every cell the placement loop does not
touch still holds it after compositing. -/
theorem claim_canvas_tight_bound
    (pack : List (ℕ × ℕ) → List (ℕ × ℕ))
    (blur : (ℕ → ℕ → RGB) → ℕ → ℕ → RGB) (posters : List Img)
    (blur_factor maxW maxH : ℕ)
    (hW : ((placements pack posters).map fun p => p.x + p.img.w).max? =
      some maxW)
    (hH : ((placements pack posters).map fun p => p.y + p.img.h).max? =
      some maxH) :
    (arrange_images pack blur posters blur_factor).isSome = true ∧
    (∀ coll, arrange_images pack blur posters blur_factor = some coll →
      coll.width = maxW + 1 ∧ coll.height = maxH + 1) ∧
    white = (255, 255, 255) ∧
    (∀ row col, deadspace (placements pack posters) row col = true →
      composite (placements pack posters) row col = white) := by
  unfold arrange_images
  rw [hW, hH]
  exact ⟨rfl, fun coll hc => by cases hc; exact ⟨rfl, rfl⟩, rfl,
    fun row col h => composite_eq_white_of_deadspace _ _ _ h⟩

/-- Witness for C5: the demo canvas is 3 wide and 2 tall, matching
`1 + (0 + 2)` and `1 + (0 + 1)`. -/
theorem claim_canvas_tight_bound_witness :
    coll_demo.width = 2 + 1 ∧ coll_demo.height = 1 + 1 :=
  (claim_canvas_tight_bound pack_row blur_const posters_demo 2 2 1
    (by rw [placements_demo_eq]; decide)
    (by rw [placements_demo_eq]; decide)).2.1 coll_demo arrange_demo_eq

/-- C10: the list handed to the packer is sorted by pixel area in
non-increasing order, and posters of exactly equal area keep the relative
order the normalizer produced them in (Python `sorted` is stable, also under
`reverse=True`); being a function of the input list, the packing input is
deterministic. -/
theorem claim_packer_input_sorted (posters : List Img) :
    List.Pairwise (fun a b : Img => b.area ≤ a.area) (sort_posters posters) ∧
    ∀ k : ℕ, (sort_posters posters).filter (fun im : Img => im.area == k) =
      posters.filter (fun im : Img => im.area == k) := by
  have trans : ∀ a b c : Img, decide (b.area ≤ a.area) →
      decide (c.area ≤ b.area) → decide (c.area ≤ a.area) := by
    intro a b c hab hbc
    simp only [decide_eq_true_eq] at *
    exact le_trans hbc hab
  have total : ∀ a b : Img,
      decide (b.area ≤ a.area) || decide (a.area ≤ b.area) := by
    intro a b
    simp only [Bool.or_eq_true, decide_eq_true_eq]
    exact Nat.le_total b.area a.area
  constructor
  · have h := List.sorted_mergeSort trans total posters
    exact h.imp (by simp)
  · intro k
    have hperm : List.Perm
        ((sort_posters posters).filter (fun im : Img => im.area == k))
        (posters.filter (fun im : Img => im.area == k)) :=
      (List.mergeSort_perm posters _).filter _
    have hmem : ∀ a ∈ posters.filter (fun im : Img => im.area == k),
        a.area = k := by
      intro a ha
      simpa using (List.mem_filter.mp ha).2
    have hc : (posters.filter (fun im : Img => im.area == k)).Pairwise
        (fun a b => decide (b.area ≤ a.area) = true) :=
      List.pairwise_of_forall_mem_list fun a ha b hb => by
        simp [hmem a ha, hmem b hb]
    have hsub : List.Sublist (posters.filter (fun im : Img => im.area == k))
        (sort_posters posters) :=
      List.sublist_mergeSort trans total hc (List.filter_sublist posters)
    have hfix : (posters.filter (fun im : Img => im.area == k)).filter
        (fun im : Img => im.area == k) =
        posters.filter (fun im : Img => im.area == k) :=
      List.filter_eq_self.mpr fun a ha => (List.mem_filter.mp ha).2
    have hsub2 : List.Sublist (posters.filter (fun im : Img => im.area == k))
        ((sort_posters posters).filter (fun im : Img => im.area == k)) := by
      rw [← hfix]
      exact hsub.filter _
    exact (hsub2.eq_of_length hperm.symm.length_eq).symm

/-- C7: the resize step returns `None` precisely when one of the two computed
target dimensions is below one pixel (in the squared encoding,
`height2 < 1 ∨ width2 < 1`); whenever it returns a size both components are
positive integers; and the normalizer never fails on a non-empty input list,
silently skipping dropped images. -/
theorem claim_subpixel_drop (ratio : ℚ) (W H : ℕ) :
    (resize_width_w_constant_aspect ratio W H = none ↔
      height2 ratio W H < 1 ∨ width2 ratio W < 1) ∧
    (∀ w h, resize_width_w_constant_aspect ratio W H = some (w, h) →
      0 < w ∧ 0 < h) ∧
    (∀ tps : List (ℕ × ℕ × ℕ), tps ≠ [] →
      (normalize_posters tps).isSome = true) := by
  refine ⟨?_, ?_, ?_⟩
  · have hresize : resize_width_w_constant_aspect ratio W H = none ↔
        ¬(1 ≤ height2 ratio W H ∧ 1 ≤ width2 ratio W) := by
      unfold resize_width_w_constant_aspect
      split <;> simp_all
    rw [hresize, not_and_or, not_le, not_le]
  · intro w h hr
    unfold resize_width_w_constant_aspect at hr
    split at hr
    · rename_i hcond
      cases hr
      have h1 : 1 ≤ ⌊height2 ratio W H⌋ :=
        Int.le_floor.mpr (by exact_mod_cast hcond.1)
      have h2 : 1 ≤ ⌊width2 ratio W⌋ :=
        Int.le_floor.mpr (by exact_mod_cast hcond.2)
      constructor <;> exact Nat.sqrt_pos.mpr (by omega)
    · cases hr
  · intro tps hne
    cases tps with
    | nil => exact absurd rfl hne
    | cons a l => simp [normalize_posters, List.max?_cons']

/-- Witness for C7: the resize at ratio 2 of a 50 by 50 image yields the
positive size 70 by 70, and a singleton input normalizes without error. -/
theorem claim_subpixel_drop_witness :
    (0 < 70 ∧ 0 < 70) ∧ (normalize_posters [(1, 1, 1)]).isSome = true := by
  refine ⟨(claim_subpixel_drop 2 50 50).2.1 70 70 ?_,
    (claim_subpixel_drop 2 50 50).2.2 [(1, 1, 1)] (by simp)⟩
  norm_num [resize_width_w_constant_aspect, width2, height2, ratSqrtFloor,
    Int.floor_ofNat]
  simp
  norm_num

/-- C2: whenever the resize step returns a size `(w, h)` for an original
size `(W, H)`, there is one positive real scale `s` with `w` within one pixel
of `s * W` and `h` within one pixel of `s * H`: the returned rectangle has
the original aspect ratio up to the integer truncation of each dimension. -/
theorem claim_aspect_preservation (ratio : ℚ) (W H w h : ℕ)
    (hr : resize_width_w_constant_aspect ratio W H = some (w, h)) :
    0 < Real.sqrt (ratio : ℝ) * W / H ∧
    |(w : ℝ) - Real.sqrt (ratio : ℝ) * W / H * W| ≤ 1 ∧
    |(h : ℝ) - Real.sqrt (ratio : ℝ) * W / H * H| ≤ 1 := by
  unfold resize_width_w_constant_aspect at hr
  split at hr
  case isFalse => cases hr
  case isTrue hcond =>
  cases hr
  obtain ⟨hh2, hw2⟩ := hcond
  -- positivity of the data is forced by the two conditions
  have hW : 0 < W := by
    rcases Nat.eq_zero_or_pos W with h0 | h0
    · exfalso; rw [width2, h0] at hw2; push_cast at hw2; norm_num at hw2
    · exact h0
  have hratio : 0 < ratio := by
    rcases le_or_lt ratio 0 with h0 | h0
    · exfalso
      have : width2 ratio W ≤ 0 :=
        mul_nonpos_of_nonpos_of_nonneg h0 (by positivity)
      linarith
    · exact h0
  have hH : 0 < H := by
    rcases Nat.eq_zero_or_pos H with h0 | h0
    · exfalso; rw [height2, h0] at hh2; push_cast at hh2; norm_num at hh2
    · exact h0
  have hWr : (0 : ℝ) < W := by exact_mod_cast hW
  have hHr : (0 : ℝ) < H := by exact_mod_cast hH
  have hratior : (0 : ℝ) < (ratio : ℝ) := by exact_mod_cast hratio
  have hs : 0 < Real.sqrt (ratio : ℝ) * W / H := by
    have := Real.sqrt_pos.mpr hratior
    positivity
  -- the exact real dimensions are the square roots of the two encodings
  have hwidth : Real.sqrt ((width2 ratio W : ℚ) : ℝ) =
      Real.sqrt (ratio : ℝ) * W := by
    rw [show ((width2 ratio W : ℚ) : ℝ) = (ratio : ℝ) * (W : ℝ) ^ 2 by
        unfold width2; push_cast; ring,
      Real.sqrt_mul (le_of_lt hratior), Real.sqrt_sq (le_of_lt hWr)]
  have hheight : Real.sqrt ((height2 ratio W H : ℚ) : ℝ) =
      Real.sqrt (ratio : ℝ) * W / H * W := by
    rw [show ((height2 ratio W H : ℚ) : ℝ) =
        (ratio : ℝ) * (W : ℝ) ^ 2 * ((W : ℝ) ^ 2 / (H : ℝ) ^ 2) by
        unfold height2 width2; push_cast; ring]
    rw [Real.sqrt_mul (by positivity), Real.sqrt_mul (le_of_lt hratior),
      Real.sqrt_sq (le_of_lt hWr),
      Real.sqrt_div (by positivity : (0 : ℝ) ≤ (W : ℝ) ^ 2),
      Real.sqrt_sq (le_of_lt hWr), Real.sqrt_sq (le_of_lt hHr)]
    ring
  refine ⟨hs, ?_, ?_⟩
  · have hq : (0 : ℚ) ≤ height2 ratio W H := by linarith
    have b1 := ratSqrtFloor_le_sqrt _ hq
    have b2 := sqrt_lt_ratSqrtFloor_add_one (height2 ratio W H)
    rw [hheight] at b1 b2
    rw [abs_le]
    constructor <;> linarith
  · have hq : (0 : ℚ) ≤ width2 ratio W := by linarith
    have hsH : Real.sqrt (ratio : ℝ) * W / H * H =
        Real.sqrt (ratio : ℝ) * W := by
      field_simp
    have b1 := ratSqrtFloor_le_sqrt _ hq
    have b2 := sqrt_lt_ratSqrtFloor_add_one (width2 ratio W)
    rw [hwidth] at b1 b2
    rw [hsH, abs_le]
    constructor <;> linarith

/-- Witness for C2 at ratio 2 on a 50 by 50 image: the resize yields
70 by 70 and both dimensions are within one pixel of the common scale. -/
theorem claim_aspect_preservation_witness :
    0 < Real.sqrt ((2 : ℚ) : ℝ) * 50 / 50 ∧
    |(70 : ℝ) - Real.sqrt ((2 : ℚ) : ℝ) * 50 / 50 * 50| ≤ 1 ∧
    |(70 : ℝ) - Real.sqrt ((2 : ℚ) : ℝ) * 50 / 50 * 50| ≤ 1 :=
  claim_aspect_preservation 2 50 50 70 70 (by
    norm_num [resize_width_w_constant_aspect, width2, height2, ratSqrtFloor,
      Int.floor_ofNat]
    simp
    norm_num)

/-- Facts forced by a successful resize: positive data, both squared
dimensions at least 1, and the two returned components. -/
lemma resize_some_facts (ratio : ℚ) (W H w h : ℕ)
    (hr : resize_width_w_constant_aspect ratio W H = some (w, h)) :
    0 < W ∧ 0 < H ∧ 0 < ratio ∧ 1 ≤ height2 ratio W H ∧ 1 ≤ width2 ratio W ∧
    w = ratSqrtFloor (height2 ratio W H) ∧ h = ratSqrtFloor (width2 ratio W) := by
  unfold resize_width_w_constant_aspect at hr
  split at hr
  case isFalse => cases hr
  case isTrue hcond =>
  cases hr
  obtain ⟨hh2, hw2⟩ := hcond
  have hW : 0 < W := by
    rcases Nat.eq_zero_or_pos W with h0 | h0
    · exfalso; rw [width2, h0] at hw2; push_cast at hw2; norm_num at hw2
    · exact h0
  have hratio : 0 < ratio := by
    rcases le_or_lt ratio 0 with h0 | h0
    · exfalso
      have : width2 ratio W ≤ 0 :=
        mul_nonpos_of_nonpos_of_nonneg h0 (by positivity)
      linarith
    · exact h0
  have hH : 0 < H := by
    rcases Nat.eq_zero_or_pos H with h0 | h0
    · exfalso; rw [height2, h0] at hh2; push_cast at hh2; norm_num at hh2
    · exact h0
  exact ⟨hW, hH, hratio, hh2, hw2, rfl, rfl⟩

/-- C8 counterexample: on the spec example (weights 10 and 5, original
sizes 100 by 100 and 50 by 50), the code resizes the second image to
70 by 70, not the claimed 71 by 71: Python `int` truncates rather than
rounds the value sqrt 2 * 50 = 70.71. -/
theorem claim_round_width_counterexample :
    normalize_posters [(10, 100, 100), (5, 50, 50)] =
      some [(100, 100), (70, 70)] ∧ ((70, 70) : ℕ × ℕ) ≠ (71, 71) := by
  constructor
  · norm_num [normalize_posters, resize_width_w_constant_aspect, norm_ratio,
      width2, height2, ratSqrtFloor, List.max?, List.filterMap_cons,
      Int.floor_ofNat]
    simp
    norm_num
  · decide

/-- C8 amended: the final width is the floor (truncation, not rounding) of
`sqrt(ratio) * W^2 / H`, and the final height is the floor of
`sqrt(ratio) * W`: the `W/H` factor and the swap through the PIL size tuple
mean the width is not `round(t * W)` in general, and rounding is downward. -/
theorem claim_resize_floor_formula (ratio : ℚ) (W H w h : ℕ)
    (hr : resize_width_w_constant_aspect ratio W H = some (w, h)) :
    (w : ℤ) = ⌊Real.sqrt (ratio : ℝ) * (W : ℝ) ^ 2 / (H : ℝ)⌋ ∧
    (h : ℤ) = ⌊Real.sqrt (ratio : ℝ) * (W : ℝ)⌋ := by
  obtain ⟨hW, hH, hratio, hh2, hw2, hweq, hheq⟩ := resize_some_facts _ _ _ _ _ hr
  have hWr : (0 : ℝ) < W := by exact_mod_cast hW
  have hHr : (0 : ℝ) < H := by exact_mod_cast hH
  have hratior : (0 : ℝ) < (ratio : ℝ) := by exact_mod_cast hratio
  have hwidth : Real.sqrt ((width2 ratio W : ℚ) : ℝ) =
      Real.sqrt (ratio : ℝ) * W := by
    rw [show ((width2 ratio W : ℚ) : ℝ) = (ratio : ℝ) * (W : ℝ) ^ 2 by
        unfold width2; push_cast; ring,
      Real.sqrt_mul (le_of_lt hratior), Real.sqrt_sq (le_of_lt hWr)]
  have hheight : Real.sqrt ((height2 ratio W H : ℚ) : ℝ) =
      Real.sqrt (ratio : ℝ) * (W : ℝ) ^ 2 / (H : ℝ) := by
    rw [show ((height2 ratio W H : ℚ) : ℝ) =
        (ratio : ℝ) * (W : ℝ) ^ 2 * ((W : ℝ) ^ 2 / (H : ℝ) ^ 2) by
        unfold height2 width2; push_cast; ring]
    rw [Real.sqrt_mul (by positivity), Real.sqrt_mul (le_of_lt hratior),
      Real.sqrt_sq (le_of_lt hWr),
      Real.sqrt_div (by positivity : (0 : ℝ) ≤ (W : ℝ) ^ 2),
      Real.sqrt_sq (le_of_lt hWr), Real.sqrt_sq (le_of_lt hHr)]
    ring
  constructor
  · rw [hweq, ← hheight, floor_sqrt_eq_ratSqrtFloor _ (by linarith)]
  · rw [hheq, ← hwidth, floor_sqrt_eq_ratSqrtFloor _ (by linarith)]

/-- Witness for the amended C8 at ratio 2 on a 50 by 50 image: both final
dimensions are the floor of sqrt 2 * 50. -/
theorem claim_resize_floor_formula_witness :
    ((70 : ℕ) : ℤ) = ⌊Real.sqrt ((2 : ℚ) : ℝ) * ((50 : ℕ) : ℝ) ^ 2 / ((50 : ℕ) : ℝ)⌋ ∧
    ((70 : ℕ) : ℤ) = ⌊Real.sqrt ((2 : ℚ) : ℝ) * ((50 : ℕ) : ℝ)⌋ :=
  claim_resize_floor_formula 2 50 50 70 70 (by
    norm_num [resize_width_w_constant_aspect, width2, height2, ratSqrtFloor,
      Int.floor_ofNat]
    simp
    norm_num)

/-- C1 counterexample: two images of equal weight 1, one 10 by 10 and one
20 by 5 (equal original areas, different aspect ratios), are resized to
10 by 10 and 80 by 20: the final areas are 100 and 1600 although the weight
ratio is 1, and both final sizes are exact squares of the rational encodings,
so no integer rounding is involved.  Final area is proportional to
`weight * (W/H)^2`, not to `weight`. -/
theorem claim_area_proportional_counterexample :
    normalize_posters [(1, 10, 10), (1, 20, 5)] = some [(10, 10), (80, 20)] ∧
    (80 * 20 : ℕ) = 16 * (10 * 10) ∧
    ((80 : ℚ)) ^ 2 = height2 (norm_ratio 100 1 1 20 5) 20 5 ∧
    ((20 : ℚ)) ^ 2 = width2 (norm_ratio 100 1 1 20 5) 20 := by
  refine ⟨?_, by decide, ?_, ?_⟩
  · norm_num [normalize_posters, resize_width_w_constant_aspect, norm_ratio,
      width2, height2, ratSqrtFloor, List.max?, List.filterMap_cons,
      Int.floor_ofNat]
    simp
    norm_num
  · norm_num [height2, width2, norm_ratio]
  · norm_num [width2, norm_ratio]

/-- C1 amended: the ratio of the exact (pre-truncation) final areas of two
retained images equals `(wA/wB) * ((WA/HA)/(WB/HB))^2`, stated here in
cross-multiplied squared form; it collapses to the weight ratio `wA/wB`
exactly when the two originals have the same aspect ratio. -/
theorem claim_exact_area_ratio (maxA maxT tA tB WA HA WB HB : ℕ)
    (hWA : 0 < WA) (hHA : 0 < HA) (hWB : 0 < WB) (hHB : 0 < HB)
    (hT : 0 < maxT) :
    finalAreaSq (norm_ratio maxA maxT tA WA HA) WA HA *
        ((tB : ℚ) * (WB : ℚ) ^ 2 * (HA : ℚ) ^ 2) ^ 2 =
      finalAreaSq (norm_ratio maxA maxT tB WB HB) WB HB *
        ((tA : ℚ) * (WA : ℚ) ^ 2 * (HB : ℚ) ^ 2) ^ 2 ∧
    (WA * HB = WB * HA →
      finalAreaSq (norm_ratio maxA maxT tA WA HA) WA HA * (tB : ℚ) ^ 2 =
        finalAreaSq (norm_ratio maxA maxT tB WB HB) WB HB * (tA : ℚ) ^ 2) := by
  have hWA0 : ((WA : ℚ)) ≠ 0 := by positivity
  have hHA0 : ((HA : ℚ)) ≠ 0 := by positivity
  have hWB0 : ((WB : ℚ)) ≠ 0 := by positivity
  have hHB0 : ((HB : ℚ)) ≠ 0 := by positivity
  have hT0 : ((maxT : ℚ)) ≠ 0 := by positivity
  constructor
  · unfold finalAreaSq height2 width2 norm_ratio
    field_simp
    ring
  · intro hasp
    have hasp2 : ((WA : ℚ)) * (HB : ℚ) = (WB : ℚ) * (HA : ℚ) := by
      exact_mod_cast hasp
    unfold finalAreaSq height2 width2 norm_ratio
    field_simp
    have h4 : ((WA : ℚ)) ^ 4 * ((HB : ℚ)) ^ 4 =
        ((WB : ℚ)) ^ 4 * ((HA : ℚ)) ^ 4 := by
      have h := congrArg (fun x : ℚ => x ^ 4) hasp2
      simpa [mul_pow] using h
    linear_combination ((maxA : ℚ)) ^ 2 * ((tA : ℚ)) ^ 2 * ((tB : ℚ)) ^ 2 *
      ((maxT : ℚ)) ^ 2 * ((WA : ℚ)) ^ 2 * ((WB : ℚ)) ^ 2 * h4

/-- Witness for the amended C1 on the counterexample data: equal weights,
originals 10 by 10 and 20 by 5. -/
theorem claim_exact_area_ratio_witness :
    finalAreaSq (norm_ratio 100 1 1 10 10) 10 10 *
        ((1 : ℚ) * ((20 : ℕ) : ℚ) ^ 2 * ((10 : ℕ) : ℚ) ^ 2) ^ 2 =
      finalAreaSq (norm_ratio 100 1 1 20 5) 20 5 *
        ((1 : ℚ) * ((10 : ℕ) : ℚ) ^ 2 * ((5 : ℕ) : ℚ) ^ 2) ^ 2 ∧
    (10 * 5 = 20 * 10 →
      finalAreaSq (norm_ratio 100 1 1 10 10) 10 10 * (1 : ℚ) ^ 2 =
        finalAreaSq (norm_ratio 100 1 1 20 5) 20 5 * (1 : ℚ) ^ 2) := by
  have h := claim_exact_area_ratio 100 1 1 1 10 10 20 5
    (by decide) (by decide) (by decide) (by decide) (by decide)
  exact_mod_cast h

/-- The compositing stage fails (max of an empty sequence) exactly when the
placement list is empty. -/
lemma arrange_eq_none_iff (pack : List (ℕ × ℕ) → List (ℕ × ℕ))
    (blur : (ℕ → ℕ → RGB) → ℕ → ℕ → RGB) (posters : List Img)
    (blur_factor : ℕ) :
    arrange_images pack blur posters blur_factor = none ↔
      placements pack posters = [] := by
  unfold arrange_images
  rcases hp : placements pack posters with _ | ⟨p, l⟩ <;> simp [hp]

/-- C4 counterexample: on an empty input the normalizer hits
`max(<empty>)` and raises (modelled by `none`), and so does the compositor:
no deterministic empty canvas is produced. -/
theorem claim_empty_input_counterexample :
    normalize_posters [] = none ∧
    arrange_images pack_row blur_const [] 0 = none := by
  refine ⟨rfl, ?_⟩
  simp [arrange_images, placements, sort_posters, pack_row]

/-- C4 amended: for a packer that returns one position per rectangle, the
pipeline raises on precisely the empty inputs: `normalize_posters` returns
`none` exactly on the empty list, and `arrange_images` returns `none`
exactly when there are no posters; no degenerate empty canvas is produced on
that path. -/
theorem claim_empty_input_raises (tps : List (ℕ × ℕ × ℕ))
    (pack : List (ℕ × ℕ) → List (ℕ × ℕ))
    (blur : (ℕ → ℕ → RGB) → ℕ → ℕ → RGB) (posters : List Img)
    (blur_factor : ℕ)
    (hpack : ∀ sizes, (pack sizes).length = sizes.length) :
    (normalize_posters tps = none ↔ tps = []) ∧
    (arrange_images pack blur posters blur_factor = none ↔ posters = []) := by
  constructor
  · cases tps with
    | nil => simp [normalize_posters]
    | cons a l => simp [normalize_posters, List.max?_cons']
  · have hlen : (placements pack posters).length = posters.length := by
      simp [placements, List.length_zip, hpack, sort_posters]
    rw [arrange_eq_none_iff]
    constructor
    · intro h
      rw [h] at hlen
      exact List.length_eq_zero.mp hlen.symm
    · intro h
      subst h
      exact List.length_eq_zero.mp hlen

/-- Witness for the amended C4 with the constant-origin packer. -/
theorem claim_empty_input_raises_witness :
    normalize_posters [] = none ∧
    arrange_images pack_zero blur_const [] 3 = none :=
  ⟨(claim_empty_input_raises [] pack_zero blur_const [] 3
      (fun sizes => by simp [pack_zero])).1.mpr rfl,
    (claim_empty_input_raises [] pack_zero blur_const [] 3
      (fun sizes => by simp [pack_zero])).2.mpr rfl⟩

end ScriptTaste
